import Mathlib

/-!
Verification development for the `sconfig` configuration-file parser bundled
with the godocgen repository (package `sconfig`, file `sconfig.go`).

The Go code is shallowly embedded: Go strings are modelled as `List Char`
(faithful for valid UTF-8 input in every place the code does byte arithmetic,
as argued at each definition), fallible code returns `Except`, Go panics and
non-termination are explicit outcomes of `GoResult`, and the `os` / `reflect`
collaborators are abstracted as explicit parameters (a file system map, an
environment map, a `stat` predicate).
-/

deriving instance DecidableEq for Except

namespace Sconfig

/-- Go strings, modelled as their list of runes. -/
abbrev Str := List Char

/-- A Go panic value: either a value implementing the `error` interface
(this includes all runtime errors such as index-out-of-range), or a value of
any other type (e.g. `panic("a string")`). -/
inductive PanicVal : Type
  | errVal (msg : Str)
  | nonError (msg : Str)
  deriving DecidableEq, Repr

/-- Outcome of running a piece of Go code: normal return, panic, or
non-termination (used to model unbounded `source` inclusion cycles). -/
inductive GoResult (α : Type) : Type
  | ok (a : α)
  | panicked (p : PanicVal)
  | diverge
  deriving DecidableEq, Repr

/-- Go's `unicode.IsSpace`: the White_Space code points. -/
def goIsSpace (c : Char) : Bool :=
  c = ' ' ∨ c = '\t' ∨ c = '\n' ∨ c = '\x0B' ∨ c = '\x0C' ∨ c = '\r' ∨
  c = '\x85' ∨ c = '\xA0' ∨ c = ' ' ∨
  (0x2000 ≤ c.toNat ∧ c.toNat ≤ 0x200A) ∨
  c = ' ' ∨ c = ' ' ∨ c = ' ' ∨ c = ' ' ∨ c = '　'

/-- Model of `strings.TrimSpace`: drop leading and trailing `unicode.IsSpace` runes. -/
def trimSpace (s : Str) : Str :=
  ((s.dropWhile goIsSpace).reverse.dropWhile goIsSpace).reverse

/-- Model of `strings.Index(line, "#")` (for a one-rune ASCII needle the byte index
found by Go identifies the same occurrence as this rune index). -/
def strIndex (c : Char) : Str → Option Nat
  | [] => none
  | a :: as => if a = c then some 0 else (strIndex c as).map (· + 1)

/-- Result of the `removeComments` scan: a normal result, the out-of-bounds
read `line[cmt-1]` when `cmt = 0` (a Go panic), or fuel exhaustion (shown
unreachable in `rcAux_no_fuelOut`). -/
inductive RCRes : Type
  | ok (out : Str)
  | oob
  | fuelOut
  deriving DecidableEq, Repr

/-- The loop of `sconfig.removeComments` (sconfig.go:342-364).

```go
prevcmt := 0
for {
    cmt := strings.Index(line[prevcmt:], "#")
    if cmt < 0 { break }
    cmt += prevcmt
    prevcmt = cmt
    // Allow escaping # with \#
    if line[cmt-1] == '\\' {
        line = line[:cmt-1] + line[cmt:]
    } else {
        line = line[:cmt]
        break
    }
}
return line
```

Byte indices in the Go code are mapped to rune indices: `#` and `\` are
single-byte runes and UTF-8 continuation bytes can never equal them, so the
byte at `cmt-1` equals `'\\'` exactly when the previous rune is `'\\'`, and
the slices `line[:cmt]`, `line[:cmt-1]`, `line[cmt:]` fall on rune
boundaries whenever they are taken. `line[cmt-1]` with `cmt = 0` is Go's
index-out-of-range panic, modelled as `RCRes.oob`. The structural fuel
argument dominates the loop's variant `len(line) - prevcmt`. -/
def rcAux : Nat → Str → Nat → RCRes
  | 0, _, _ => .fuelOut
  | fuel + 1, s, prevcmt =>
    match strIndex '#' (s.drop prevcmt) with
    | none => .ok s
    | some k =>
      let cmt := k + prevcmt
      if cmt = 0 then .oob
      else if s[cmt - 1]? = some '\\' then
        rcAux fuel (s.take (cmt - 1) ++ s.drop cmt) cmt
      else .ok (s.take cmt)

/-- Model of `sconfig.removeComments` (sconfig.go:342-364), with fuel `length + 1`
(sufficient by `rcAux_no_fuelOut`). -/
def removeComments (line : Str) : RCRes :=
  rcAux (line.length + 1) line 0

/-- The rune loop of `sconfig.collapseWhitespace` (sconfig.go:366-395).

```go
nl := ""
prevSpace := false
for i, char := range line {
    switch {
    case char == '\\':
        if line[i-1] == '\\' { nl += `\` }
    case unicode.IsSpace(char):
        if prevSpace {
            if line[i-1] == '\\' { nl += string(char) }
        } else {
            prevSpace = true
            if i != len(line)-1 { nl += " " }
        }
    default:
        nl += string(char)
        prevSpace = false
    }
}
```

`prev` is the rune before the current one (`none` at the first rune).
`line[i-1]` reads the final byte of that rune, which equals `'\\'` exactly
when the rune is `'\\'`; at the first rune it reads `line[-1]` and panics
(modelled as `none`). Go's `i != len(line)-1` compares the byte offset of
the current rune with the last byte offset, i.e. it holds unless the current
rune is the last one *and* occupies a single byte (`c.toNat < 128`). -/
def collapseAux : Option Char → Bool → Str → Option Str
  | _, _, [] => some []
  | prev, prevSpace, c :: rest =>
    if c = '\\' then
      match prev with
      | none => none
      | some p => (collapseAux (some c) prevSpace rest).map
          (fun nl => (if p = '\\' then ['\\'] else []) ++ nl)
    else if goIsSpace c then
      if prevSpace then
        match prev with
        | none => none
        | some p => (collapseAux (some c) prevSpace rest).map
            (fun nl => (if p = '\\' then [c] else []) ++ nl)
      else
        (collapseAux (some c) true rest).map
          (fun nl => (if rest.isEmpty ∧ c.toNat < 128 then [] else [' ']) ++ nl)
    else
      (collapseAux (some c) false rest).map (fun nl => c :: nl)

/-- Model of `sconfig.collapseWhitespace` (sconfig.go:366-395). `none` is the
index-out-of-range panic on a line starting with `'\\'`. -/
def collapseWhitespace (line : Str) : Option Str :=
  collapseAux none false line

/-- The per-line normalization applied by `readFile` to every surviving
line (sconfig.go:308,315): trim, strip comments, collapse whitespace. -/
def processContent (raw : Str) : Option Str :=
  match removeComments (trimSpace raw) with
  | .ok rc => collapseWhitespace rc
  | _ => none

/-- Model of `len(line) > 0 && unicode.IsSpace(rune(line[0]))` (sconfig.go:307).
`rune(line[0])` promotes the first *byte*; for a multi-byte first rune that
byte is a UTF-8 leading byte `0xC2..0xF4`, never a space, so the test holds
exactly when the first rune is a single-byte (ASCII) space. -/
def isIndentedLine (raw : Str) : Bool :=
  match raw.head? with
  | none => false
  | some c => c.toNat < 128 ∧ goIsSpace c

/-- The skip test of sconfig.go:311: after trimming, the line is empty or
its first byte is `'#'`. -/
def skipLine (raw : Str) : Bool :=
  trimSpace raw = [] ∨ (trimSpace raw).head? = some '#'

/-- One entry produced by the line reader: original 1-based line number and
processed content (the Go code stores the number formatted as a string). -/
abbrev Entry := Nat × Str

/-- The scanner loop of `sconfig.readFile` (sconfig.go:294-340), with the
recursive call for the `source` directive supplied as `rf`:

```go
i := 0
no := 0
for scanner := bufio.NewScanner(fp); scanner.Scan(); {
    no++
    line := scanner.Text()
    isIndented := len(line) > 0 && unicode.IsSpace(rune(line[0]))
    line = strings.TrimSpace(line)
    if line == "" || line[0] == '#' { continue }
    line = collapseWhitespace(removeComments(line))
    if isIndented {
        if i == 0 { return lines, fmt.Errorf("first line can't be indented") }
        lines[i-1][1] += " " + line
    } else {
        if strings.HasPrefix(line, "source ") {
            sourced, err := readFile(line[7:])
            if err != nil { return nil, err }
            lines = append(lines, sourced...)
        } else {
            lines = append(lines, []string{fmt.Sprintf("%d", no), line})
        }
        i++
    }
}
```

The panics of `removeComments` / `collapseWhitespace` and of the access
`lines[i-1]` when `i-1` is out of range are runtime errors (values
implementing `error`), modelled as `GoResult.panicked (.errVal ..)`. -/
def processLinesWith (rf : Str → GoResult (Except Str (List Entry))) :
    List Str → Nat → Nat → List Entry → GoResult (Except Str (List Entry))
  | [], _, _, acc => .ok (.ok acc)
  | raw :: rest, no, i, acc =>
    let no' := no + 1
    if skipLine raw then processLinesWith rf rest no' i acc
    else
      match processContent raw with
      | none => .panicked (.errVal ("runtime error: index out of range").toList)
      | some l =>
        if isIndentedLine raw then
          if i = 0 then .ok (.error ("first line can't be indented").toList)
          else if h : i - 1 < acc.length then
            let e := acc.get ⟨i - 1, h⟩
            processLinesWith rf rest no' i (acc.set (i - 1) (e.1, e.2 ++ ' ' :: l))
          else .panicked (.errVal ("runtime error: index out of range").toList)
        else
          if l.take 7 = ("source ").toList then
            match rf (l.drop 7) with
            | .diverge => .diverge
            | .panicked p => .panicked p
            | .ok (.error e) => .ok (.error e)
            | .ok (.ok sourced) => processLinesWith rf rest no' (i + 1) (acc ++ sourced)
          else processLinesWith rf rest no' (i + 1) (acc ++ [(no', l)])

/-- Model of `sconfig.readFile` (sconfig.go:294-340) over an abstract file system
`fs` (the `os.Open` collaborator: `none` is an open error). The structural
fuel bounds the depth of `source` inclusion; `source` cycles, which make the
Go code recurse forever, exhaust it and yield `GoResult.diverge`. -/
def readFileGo : Nat → (Str → Option (List Str)) → Str → GoResult (Except Str (List Entry))
  | 0, _, _ => .diverge
  | fuel + 1, fs, file =>
    match fs file with
    | none => .ok (.error (("open ").toList ++ file ++ (": no such file or directory").toList))
    | some raws => processLinesWith (readFileGo fuel fs) raws 0 0 []

/-! ## Field binder (sconfig.go:397-600) -/

/-- A Go `interface{}` value as produced by the type handlers used with
string and string-slice fields: a `string` or a `[]string`. -/
inductive Val : Type
  | str (s : Str)
  | strs (l : List Str)
  deriving DecidableEq, Repr

/-- A destination-record field of type `string` or `[]string`, carrying its
current contents. -/
inductive Field : Type
  | str (s : Str)
  | strs (l : List Str)
  deriving DecidableEq, Repr

/-- Model of `field.Type().String()` for the modelled field types. -/
def Field.typeStr : Field → Str
  | .str _ => ("string").toList
  | .strs _ => ("[]string").toList

/-- Model of `sconfig.TypeHandler`: `func([]string) (interface{}, error)`. The
returned `interface{}` may be `nil` (`none`); the function may also panic
or fail to terminate, hence the `GoResult` layer. -/
abbrev TypeHandler := List Str → GoResult (Except Str (Option Val))

/-- Model of `sconfig.Handler`: `func([]string) error`. `some msg` is a non-nil
error. -/
abbrev Handler := List Str → GoResult (Option Str)

/-- The global registry `typeHandlers : map[string][]TypeHandler`
(sconfig.go:253), modelled as an explicit association list (the design
fixes it before parsing starts). -/
abbrev TypeHandlers := List (Str × List TypeHandler)

/-- Go map read `typeHandlers[typ]` with its `ok` flag. -/
def lookupTH (reg : TypeHandlers) (typ : Str) : Option (List TypeHandler) :=
  (reg.find? (fun p => p.1 == typ)).map (·.2)

/-- The handler loop of `sconfig.setFromTypeHandler` (sconfig.go:583-592):

```go
var ( v interface{}; err error )
for _, h := range handler {
    v, err = h(value)
    if err != nil { return true, err }
}
```

Every handler is applied to the same `value`; `v` keeps the output of the
most recent successful handler (starting at `nil`). -/
def runChain : List TypeHandler → List Str → Option Val → GoResult (Except Str (Option Val))
  | [], _, v => .ok (.ok v)
  | h :: rest, value, _ =>
    match h value with
    | .diverge => .diverge
    | .panicked p => .panicked p
    | .ok (.error e) => .ok (.error e)
    | .ok (.ok w) => runChain rest value w

/-- The assignment step of `sconfig.setFromTypeHandler` (sconfig.go:594-598):

```go
val := reflect.ValueOf(v)
if field.Kind() == reflect.Slice {
    val = reflect.AppendSlice(*field, val)
}
field.Set(val)
```

`reflect` panics with runtime errors (which implement `error`) when `v` is
`nil`, when a non-slice value is appended to a slice field, or when the
value's type is not assignable to the field's type. -/
def fieldSet (field : Field) (v : Option Val) : GoResult Field :=
  match v with
  | none => .panicked (.errVal ("reflect: call of reflect.Value.Type on zero Value").toList)
  | some (.str s) =>
    match field with
    | .str _ => .ok (.str s)
    | .strs _ => .panicked (.errVal ("reflect: AppendSlice of non-slice Value").toList)
  | some (.strs l) =>
    match field with
    | .str _ => .panicked (.errVal ("reflect.Set: value of type []string is not assignable to type string").toList)
    | .strs old => .ok (.strs (old ++ l))

/-- Model of `sconfig.setFromTypeHandler` (sconfig.go:577-600). Returns the Go pair
`(bool, error)` together with the (functionally updated) field. -/
def setFromTypeHandler (reg : TypeHandlers) (field : Field) (value : List Str) :
    GoResult (Bool × Except Str Field) :=
  match lookupTH reg field.typeStr with
  | none => .ok (false, .ok field)
  | some handler =>
    match runChain handler value none with
    | .diverge => .diverge
    | .panicked p => .panicked p
    | .ok (.error e) => .ok (true, .error e)
    | .ok (.ok v) =>
      match fieldSet field v with
      | .diverge => .diverge
      | .panicked p => .panicked p
      | .ok f' => .ok (true, .ok f')

/-- Model of `sconfig.setFromHandler` (sconfig.go:559-575); a `nil` handlers map
behaves like the empty list. -/
def setFromHandler (handlers : List (Str × Handler)) (fieldName : Str) (values : List Str) :
    GoResult (Bool × Option Str) :=
  match (handlers.find? (fun p => p.1 == fieldName)).map (·.2) with
  | none => .ok (false, none)
  | some h =>
    match h values with
    | .diverge => .diverge
    | .panicked p => .panicked p
    | .ok none => .ok (true, none)
    | .ok (some e) => .ok (true, some (e ++ (" (from handler)").toList))

/-- Model of `strings.Split(s, " ")` (sconfig.go:453): split at every single space,
keeping empty fields. -/
def splitSp : Str → List Str
  | [] => [[]]
  | c :: rest =>
    if c = ' ' then [] :: splitSp rest
    else
      match splitSp rest with
      | [] => [[c]]
      | w :: ws => (c :: w) :: ws

/-- Model of `strings.Replace(s, pat, rep, -1)`: replace every non-overlapping
occurrence, scanning left to right. The structural fuel dominates the
scan (`s.length` suffices for the non-empty patterns used here). -/
def replaceAllAux : Nat → Str → Str → Str → Str
  | 0, _, _, s => s
  | fuel + 1, pat, rep, s =>
    match s with
    | [] => []
    | c :: rest =>
      if (c :: rest).take pat.length = pat then
        rep ++ replaceAllAux fuel pat rep ((c :: rest).drop pat.length)
      else c :: replaceAllAux fuel pat rep rest

/-- Model of `strings.Replace(s, pat, rep, -1)`. -/
def replaceAll (pat rep s : Str) : Str :=
  replaceAllAux (s.length + 1) pat rep s

/-- Modelled from the spec: `inflect.camelize` lives in sconfig's `inflect`
helper package, which is not among the provided sources. Per spec §4.2(a)
the key is converted from its snake-or-space-separated form to PascalCase:
split on `-`, `_` and space, capitalize each segment, concatenate. -/
def camelize (key : Str) : Str :=
  ((key.splitOnP (fun c => c = '-' ∨ c = '_' ∨ c = ' ')).map
    (fun seg => match seg with
      | [] => []
      | c :: r => c.toUpper :: r)).flatten

/-- The acronym table of `fieldNameFromKey` (sconfig.go:535-539), verbatim. -/
def acronyms : List Str :=
  [("Api").toList, ("Ascii").toList, ("Cpu").toList, ("Css").toList, ("Dns").toList,
   ("Eof").toList, ("Guid").toList, ("Html").toList, ("Https").toList, ("Http").toList,
   ("Id").toList, ("Ip").toList, ("Json").toList, ("Lhs").toList, ("Qps").toList,
   ("Ram").toList, ("Rhs").toList, ("Rpc").toList, ("Sla").toList, ("Smtp").toList,
   ("Sql").toList, ("Ssh").toList, ("Tcp").toList, ("Tls").toList, ("Ttl").toList,
   ("Udp").toList, ("Ui").toList, ("Uid").toList, ("Uuid").toList, ("Uri").toList,
   ("Url").toList, ("Utf8").toList, ("Vm").toList, ("Xml").toList, ("Xsrf").toList,
   ("Xss").toList]

/-- The acronym-uppercasing loop of `fieldNameFromKey` (sconfig.go:540-542):
`fieldName = strings.Replace(fieldName, a, strings.ToUpper(a), -1)` for each
acronym in order. -/
def acronymFix (fieldName : Str) : Str :=
  acronyms.foldl (fun s a => replaceAll a (a.map Char.toUpper) s) fieldName

/-- Modelled from the spec: `inflect.togglePlural` is in the missing
`inflect` package; per spec §4.2(c) the trailing `s` is toggled. -/
def togglePlural (s : Str) : Str :=
  if s.getLast? = some 's' then s.dropLast else s ++ ['s']

/-- The destination record (struct case): field name to field value.
Presence in the list models `reflect`'s `CanAddr` succeeding. -/
abbrev Config := List (Str × Field)

/-- Model of `values.FieldByName(name)`. -/
def lookupField (cfg : Config) (name : Str) : Option Field :=
  (cfg.find? (fun p => p.1 == name)).map (·.2)

/-- Functional stand-in for mutating the looked-up field in place. -/
def setField (cfg : Config) (name : Str) (f : Field) : Config :=
  cfg.map (fun p => if p.1 == name then (p.1, f) else p)

/-- Model of `sconfig.fieldNameFromKey` (sconfig.go:531-557). -/
def fieldNameFromKey (cfg : Config) (key : Str) : Except Str Str :=
  let fieldName := acronymFix (camelize key)
  match lookupField cfg fieldName with
  | some _ => .ok fieldName
  | none =>
    let fieldNamePlural := togglePlural fieldName
    match lookupField cfg fieldNamePlural with
    | some _ => .ok fieldNamePlural
    | none => .error (("unknown option (field ").toList ++ fieldName ++
        (" or ").toList ++ fieldNamePlural ++ (" is missing)").toList)

/-- Model of `sconfig.fmterr` (sconfig.go:526-529). -/
def fmterr (file : Str) (lineNo : Nat) (key err : Str) : Str :=
  file ++ (" line ").toList ++ (toString lineNo).toList ++
  (": error parsing ").toList ++ key ++ (": ").toList ++ err

/-- The per-line loop of `sconfig.Parse` (sconfig.go:451-501), struct
destination case (the `map` destination case and the non-pointer
`getValues` programmer-error path are outside the scope of the claims and
are not modelled). -/
def parseLines (reg : TypeHandlers) (handlers : List (Str × Handler)) (file : Str) :
    List Entry → Config → GoResult (Except Str Config)
  | [], cfg => .ok (.ok cfg)
  | (no, content) :: rest, cfg =>
    let v := splitSp content
    let key := v.headD []
    match fieldNameFromKey cfg key with
    | .error e => .ok (.error (fmterr file no key e))
    | .ok fieldName =>
      let field := (lookupField cfg fieldName).getD (.str [])
      match setFromHandler handlers fieldName v.tail with
      | .diverge => .diverge
      | .panicked p => .panicked p
      | .ok (true, some e) => .ok (.error (fmterr file no key e))
      | .ok (true, none) => parseLines reg handlers file rest cfg
      | .ok (false, _) =>
        match setFromTypeHandler reg field v.tail with
        | .diverge => .diverge
        | .panicked p => .panicked p
        | .ok (true, .error e) => .ok (.error (fmterr file no key e))
        | .ok (true, .ok f') => parseLines reg handlers file rest (setField cfg fieldName f')
        | .ok (false, _) => .ok (.error (fmterr file no key
            (("don't know how to set fields of the type ").toList ++ field.typeStr)))

/-- The body of `sconfig.Parse` (sconfig.go:443-503): read the file, then
bind every line, without the deferred recover. -/
def ParseBody (reg : TypeHandlers) (fuel : Nat) (fs : Str → Option (List Str))
    (cfg : Config) (file : Str) (handlers : List (Str × Handler)) :
    GoResult (Except Str Config) :=
  match readFileGo fuel fs file with
  | .diverge => .diverge
  | .panicked p => .panicked p
  | .ok (.error e) => .ok (.error e)
  | .ok (.ok lines) => parseLines reg handlers file lines cfg

/-- The deferred recover of `sconfig.Parse` (sconfig.go:430-441):

```go
defer func() {
    if DontPanic {
        if rec := recover(); rec != nil {
            switch recType := rec.(type) {
            case error: returnErr = recType
            default:    panic(rec)
            }
        }
    }
}()
```

Only a panicked value implementing `error` becomes the return value; any
other panicked value is re-raised. -/
def recoverWrap (dontPanic : Bool) (r : GoResult (Except Str Config)) :
    GoResult (Except Str Config) :=
  match r with
  | .ok x => .ok x
  | .diverge => .diverge
  | .panicked p =>
    if dontPanic then
      match p with
      | .errVal m => .ok (.error m)
      | .nonError m => .panicked (.nonError m)
    else .panicked p

/-- Initial value of the package variable `sconfig.DontPanic`
(sconfig.go:407); reassignment is modelled by `Parse`'s first argument. -/
def DontPanic : Bool := true

/-- Model of `sconfig.Parse` (sconfig.go:427-504), struct destination case. -/
def Parse (dontPanic : Bool) (reg : TypeHandlers) (fuel : Nat)
    (fs : Str → Option (List Str)) (cfg : Config) (file : Str)
    (handlers : List (Str × Handler)) : GoResult (Except Str Config) :=
  recoverWrap dontPanic (ParseBody reg fuel fs cfg file handlers)

/-! ## FindConfig (sconfig.go:614-644) -/

/-- Model of `strings.TrimLeft(file, "/")`. -/
def trimLeftSlash : Str → Str
  | [] => []
  | c :: rest => if c = '/' then trimLeftSlash rest else c :: rest

/-- The location probe loop of `FindConfig` (sconfig.go:637-643): first
location `os.Stat` accepts, else `""`. -/
def firstExisting (stat : Str → Bool) : List Str → Str
  | [] => []
  | l :: ls => if stat l then l else firstExisting stat ls

/-- Model of `sconfig.FindConfig` (sconfig.go:614-644). `getenv` models `os.Getenv`
(returning `""` when unset), `stat` models `os.Stat` succeeding, and `join`
models the external `filepath.Join` (variadic). -/
def FindConfig (join : List Str → Str) (getenv : Str → Str) (stat : Str → Bool)
    (file0 : Str) : Str :=
  let file := trimLeftSlash file0
  let xdg := getenv ("XDG_CONFIG").toList
  let home := getenv ("HOME").toList
  let locations : List Str :=
    (if xdg ≠ [] then [join [xdg, file]] else []) ++
    (if home ≠ [] then
      (if xdg = [] then [join [home, ("/.config/").toList, file]] else []) ++
      [home ++ ("/.").toList ++ file]
     else []) ++
    [("/etc/").toList ++ file,
     ("/usr/local/etc/").toList ++ file,
     ("/usr/pkg/etc/").toList ++ file,
     ("./").toList ++ file]
  firstExisting stat locations

/-! ## Spec-side definition for the C1 refinement comparison -/

/-- Tokens to feed a handler's output onward, for the spec's reading of the
chain ("feed its output to the next"): a string output becomes one token, a
list its tokens, `nil` no tokens. -/
def valTokens : Option Val → List Str
  | none => []
  | some (.str s) => [s]
  | some (.strs l) => l

/-- Modelled from the spec's words, for comparison with `runChain` (the
code's chain): "feed `values` to the first handler, feed its output to the
next, etc.; the final output is converted to the field's type and
assigned". -/
def chainSpecFeed : List TypeHandler → List Str → GoResult (Except Str (Option Val))
  | [], _ => .ok (.ok none)
  | h :: rest, value =>
    match h value with
    | .diverge => .diverge
    | .panicked p => .panicked p
    | .ok (.error e) => .ok (.error e)
    | .ok (.ok w) =>
      match rest with
      | [] => .ok (.ok w)
      | _ => chainSpecFeed rest (valTokens w)

/-! ## Predicates used in the statements -/

/-- The last character exists and is whitespace. -/
def endsWS : Str → Bool
  | [] => false
  | c :: rest => if rest.isEmpty then goIsSpace c else endsWS rest

/-- The last two characters exist and are both whitespace. -/
def lastTwoWS : Str → Bool
  | [] => false
  | [_] => false
  | a :: b :: rest => if rest.isEmpty then goIsSpace a && goIsSpace b else lastTwoWS (b :: rest)

/-- No two adjacent plain spaces. -/
def noAdjSp : Str → Bool
  | [] => true
  | [_] => true
  | a :: b :: rest => if a = ' ' ∧ b = ' ' then false else noAdjSp (b :: rest)

/-- Some character is not whitespace. -/
def hasNonWS (s : Str) : Bool :=
  s.any (fun c => !goIsSpace c)

/-! ## Concrete fixtures -/

/-- File system with a `source` inclusion of a two-entry file followed by an
indented continuation line. -/
def fsC2 : Str → Option (List Str) := fun f =>
  if f = ("main.conf").toList then
    some [("key1 v").toList, ("source other.conf").toList, ("  cont").toList]
  else if f = ("other.conf").toList then
    some [("a 1").toList, ("b 2").toList]
  else none

/-- Single-file file system whose only line is indented. -/
def fsC8w : Str → Option (List Str) := fun f =>
  if f = ("f").toList then some [("  key value").toList] else none

/-- Single-file file system whose only line is indented and, after
trimming, begins with a backslash. -/
def fsC8x : Str → Option (List Str) := fun f =>
  if f = ("f").toList then some [("  \\x y").toList] else none

/-- A type handler that ignores its input and returns the string `X`. -/
def c1h1 : TypeHandler := fun _ => .ok (.ok (some (.str ("X").toList)))

/-- A type handler that echoes its first input token as a string. -/
def c1h2 : TypeHandler := fun v => .ok (.ok (some (.str (v.headD []))))

/-- Registry chaining `c1h1` then `c1h2` for type `string`. -/
def c1reg : TypeHandlers := [(("string").toList, [c1h1, c1h2])]

/-- A type handler that returns its token list as a `[]string` value. -/
def hEcho : TypeHandler := fun v => .ok (.ok (some (.strs v)))

/-- Registry with the echo handler for type `[]string`. -/
def regC4 : TypeHandlers := [(("[]string").toList, [hEcho])]

/-- One-line configuration file `tag x`. -/
def fsC3 : Str → Option (List Str) := fun f =>
  if f = ("conf").toList then some [("tag x").toList] else none

/-- A destination record with a single string field `Tag`. -/
def cfgC3 : Config := [(("Tag").toList, .str [])]

/-- A field handler for `Tag` that panics with a non-`error` value. -/
def handlersC3 : List (Str × Handler) :=
  [(("Tag").toList, fun _ => .panicked (.nonError ("boom").toList))]

/-- A field handler for `Tag` that panics with an `error` value. -/
def handlersC3err : List (Str × Handler) :=
  [(("Tag").toList, fun _ => .panicked (.errVal ("kaboom").toList))]

/-! ## Facts about the comment scan -/

theorem strIndex_lt_length {c : Char} :
    ∀ {l : Str} {k : Nat}, strIndex c l = some k → k < l.length := by
  intro l
  induction l with
  | nil => intro k h; simp [strIndex] at h
  | cons a as ih =>
    intro k h
    by_cases hac : a = c
    · simp [strIndex, hac] at h
      simp [List.length_cons]
      omega
    · simp [strIndex, hac] at h
      obtain ⟨k', hk', rfl⟩ := h
      have := ih hk'
      simp [List.length_cons]
      omega

theorem strIndex_get {c : Char} :
    ∀ {l : Str} {k : Nat}, strIndex c l = some k → l[k]? = some c := by
  intro l
  induction l with
  | nil => intro k h; simp [strIndex] at h
  | cons a as ih =>
    intro k h
    by_cases hac : a = c
    · simp [strIndex, hac] at h
      simp [← h, hac]
    · simp [strIndex, hac] at h
      obtain ⟨k', hk', rfl⟩ := h
      simpa using ih hk'

/-- The comment-scan loop terminates with a normal result whenever the scan
starts past position 0 or the line does not begin with `#`; in particular
it never performs the out-of-bounds read `line[-1]` and never exhausts the
fuel while `length - prevcmt < fuel`. -/
theorem rcAux_ok : ∀ (fuel : Nat) (s : Str) (prevcmt : Nat),
    s.length - prevcmt < fuel →
    (1 ≤ prevcmt ∨ s.head? ≠ some '#') →
    ∃ out, rcAux fuel s prevcmt = .ok out := by
  intro fuel
  induction fuel with
  | zero => intro s prevcmt h _; omega
  | succ fuel ih =>
    intro s prevcmt hlen hp
    match hidx : strIndex '#' (s.drop prevcmt) with
    | none => exact ⟨s, by simp [rcAux, hidx]⟩
    | some k =>
      have hklt : k < (s.drop prevcmt).length := strIndex_lt_length hidx
      have hk2 : k < s.length - prevcmt := by simpa using hklt
      have hcmt : ¬ (k + prevcmt = 0) := by
        rcases hp with hp | hp
        · omega
        · intro h0
          have hk0 : k = 0 := by omega
          have hpc : prevcmt = 0 := by omega
          have hget := strIndex_get hidx
          rw [hk0, hpc, List.drop_zero] at hget
          cases s with
          | nil => simp at hget
          | cons a as =>
            simp at hget
            exact hp (by simp [hget])
      by_cases hbs : s[k + prevcmt - 1]? = some '\\'
      · have hrec := ih (s.take (k + prevcmt - 1) ++ s.drop (k + prevcmt)) (k + prevcmt)
          (by simp [List.length_append, List.length_take, List.length_drop]; omega)
          (by omega)
        obtain ⟨out, hout⟩ := hrec
        refine ⟨out, ?_⟩
        simpa [rcAux, hidx, hcmt, hbs] using hout
      · exact ⟨s.take (k + prevcmt), by simp [rcAux, hidx, hcmt, hbs]⟩

/-- Claim C9: for every line handed to the comment-removal scan whose first
character is not `#` (the precondition `readFile` establishes by skipping
comment lines), the scan completes normally: it never reads a character
before the start of the string (the guard against an escaped `#` at
position 0 cannot fault). -/
theorem c9_remove_comments_no_oob (s : Str) (h : s.head? ≠ some '#') :
    ∃ out, removeComments s = .ok out :=
  rcAux_ok (s.length + 1) s 0 (by omega) (.inr h)

/-- Witness for C9 at the concrete line `key a \#b #c`. -/
theorem c9_witness : ∃ out, removeComments (("key a \\#b #c").toList) = .ok out :=
  c9_remove_comments_no_oob (("key a \\#b #c").toList) (by decide)

/-! ## Facts about whitespace collapsing -/

theorem lastTwoWS_tail {c : Char} {l : Str} (h : lastTwoWS (c :: l) = false) :
    lastTwoWS l = false := by
  match l with
  | [] => rfl
  | [b] => rfl
  | b :: d :: r => simpa [lastTwoWS] using h

theorem lastTwoWS_allWS : ∀ (l : Str) (a : Char), goIsSpace a = true → l ≠ [] →
    (∀ x ∈ l, goIsSpace x = true) → lastTwoWS (a :: l) = true := by
  intro l
  induction l with
  | nil => intro a _ h _; exact absurd rfl h
  | cons d l' ih =>
    intro a ha _ hall
    cases l' with
    | nil => simp [lastTwoWS, ha, hall d (by simp)]
    | cons e r =>
      have hrec := ih d (hall d (by simp)) (by simp)
        (fun x hx => hall x (List.mem_cons_of_mem _ hx))
      simpa [lastTwoWS] using hrec

theorem lastTwoWS_of_endsWS : ∀ (l : Str), endsWS l = false → lastTwoWS l = false := by
  intro l
  induction l with
  | nil => intro _; rfl
  | cons a l' ih =>
    intro h
    cases l' with
    | nil => rfl
    | cons b r =>
      have h' : endsWS (b :: r) = false := by simpa [endsWS] using h
      have hl' := ih h'
      cases r with
      | nil =>
        have hb : goIsSpace b = false := by simpa [endsWS] using h'
        simp [lastTwoWS, hb]
      | cons e r' => simpa [lastTwoWS] using hl'

/-- Single-step unfoldings of `collapseAux`, used to control rewriting. -/
theorem collapseAux_cons_default (prev : Option Char) (ps : Bool) (c : Char) (rest : Str)
    (h1 : c ≠ '\\') (h2 : goIsSpace c = false) :
    collapseAux prev ps (c :: rest) =
      (collapseAux (some c) false rest).map (fun nl => c :: nl) := by
  simp [collapseAux, h1, h2]

theorem collapseAux_cons_ws_false (prev : Option Char) (c : Char) (rest : Str)
    (h1 : c ≠ '\\') (h2 : goIsSpace c = true) :
    collapseAux prev false (c :: rest) =
      (collapseAux (some c) true rest).map
        (fun nl => (if rest.isEmpty ∧ c.toNat < 128 then [] else [' ']) ++ nl) := by
  simp [collapseAux, h1, h2]

theorem collapseAux_cons_ws_true (p c : Char) (rest : Str)
    (h1 : c ≠ '\\') (h2 : goIsSpace c = true) :
    collapseAux (some p) true (c :: rest) =
      (collapseAux (some c) true rest).map
        (fun nl => (if p = '\\' then [c] else []) ++ nl) := by
  simp [collapseAux, h1, h2]

theorem collapseAux_none_ws_true (c : Char) (rest : Str)
    (h1 : c ≠ '\\') (h2 : goIsSpace c = true) :
    collapseAux none true (c :: rest) = none := by
  simp [collapseAux, h1, h2]

theorem hasNonWS_iff {l : Str} : hasNonWS l = true ↔ ∃ x ∈ l, goIsSpace x = false := by
  simp [hasNonWS, List.any_eq_true]

/-- Core of claim C5: on a line without backslashes, made of single-byte
characters, and not ending in two whitespace characters, the collapsing
loop produces output that does not end in whitespace (and is nonempty as
soon as some input character is not whitespace). -/
theorem collapseAux_not_endsWS :
    ∀ (rest : Str) (prev : Option Char) (prevSpace : Bool) (out : Str),
    '\\' ∉ rest → (∀ c ∈ rest, c.toNat < 128) → prev ≠ some '\\' →
    lastTwoWS rest = false →
    collapseAux prev prevSpace rest = some out →
    endsWS out = false ∧ (hasNonWS rest = true → out ≠ []) := by
  intro rest
  induction rest with
  | nil =>
    intro prev prevSpace out _ _ _ _ h
    simp [collapseAux] at h
    subst h
    simp [endsWS, hasNonWS]
  | cons c rest' ih =>
    intro prev prevSpace out hbs hascii hprev hlt h
    have hcbs : c ≠ '\\' := by intro hc; exact hbs (by simp [hc])
    have hbs' : '\\' ∉ rest' := fun hm => hbs (List.mem_cons_of_mem _ hm)
    have hascii' : ∀ x ∈ rest', x.toNat < 128 :=
      fun x hx => hascii x (List.mem_cons_of_mem _ hx)
    have hlt' : lastTwoWS rest' = false := lastTwoWS_tail hlt
    by_cases hws : goIsSpace c = true
    · cases prevSpace with
      | true =>
        match prev, hprev with
        | none, _ =>
          rw [collapseAux_none_ws_true c rest' hcbs hws] at h
          exact absurd h (by simp)
        | some p, hprev =>
          have hp : p ≠ '\\' := fun hip => hprev (congrArg some hip)
          rw [collapseAux_cons_ws_true p c rest' hcbs hws] at h
          rw [Option.map_eq_some'] at h
          obtain ⟨out', hout', hfo⟩ := h
          rw [if_neg hp] at hfo
          simp only [List.nil_append] at hfo
          subst hfo
          have hres := ih (some c) true out' hbs' hascii' (by simp [hcbs]) hlt' hout'
          refine ⟨hres.1, fun hn => ?_⟩
          refine hres.2 ?_
          rw [hasNonWS_iff] at hn ⊢
          obtain ⟨x, hx, hxw⟩ := hn
          cases List.mem_cons.mp hx with
          | inl hxc => rw [hxc] at hxw; rw [hws] at hxw; cases hxw
          | inr hxr => exact ⟨x, hxr, hxw⟩
      | false =>
        rw [collapseAux_cons_ws_false prev c rest' hcbs hws] at h
        rw [Option.map_eq_some'] at h
        obtain ⟨out', hout', hfo⟩ := h
        by_cases hre : rest' = []
        · subst hre
          have hc128 : c.toNat < 128 := hascii c (by simp)
          rw [if_pos ⟨by simp, hc128⟩] at hfo
          simp [collapseAux] at hout'
          subst hout'
          simp only [List.nil_append] at hfo
          subst hfo
          constructor
          · simp [endsWS]
          · intro hn
            rw [hasNonWS_iff] at hn
            obtain ⟨x, hx, hxw⟩ := hn
            simp at hx
            rw [hx] at hxw
            rw [hws] at hxw
            cases hxw
        · have hremp : rest'.isEmpty = false := by
            cases rest' with
            | nil => exact absurd rfl hre
            | cons d r' => rfl
          rw [if_neg (by simp [hremp])] at hfo
          subst hfo
          have hres := ih (some c) true out' hbs' hascii' (by simp [hcbs]) hlt' hout'
          have hnws' : hasNonWS rest' = true := by
            by_contra hnn
            have hallws : ∀ x ∈ rest', goIsSpace x = true := by
              intro x hx
              by_contra hxw
              exact hnn (hasNonWS_iff.mpr ⟨x, hx, by
                cases hxb : goIsSpace x with
                | true => exact absurd hxb hxw
                | false => rfl⟩)
            have htw := lastTwoWS_allWS rest' c hws hre hallws
            rw [htw] at hlt
            cases hlt
          have hne : out' ≠ [] := hres.2 hnws'
          constructor
          · cases hout'' : out' with
            | nil => exact absurd hout'' hne
            | cons z zs =>
              rw [hout''] at hres
              simpa [endsWS] using hres.1
          · intro _
            simp
    · have hwsf : goIsSpace c = false := by
        cases hxb : goIsSpace c with
        | true => exact absurd hxb hws
        | false => rfl
      rw [collapseAux_cons_default prev prevSpace c rest' hcbs hwsf] at h
      rw [Option.map_eq_some'] at h
      obtain ⟨out', hout', hfo⟩ := h
      subst hfo
      have hres := ih (some c) false out' hbs' hascii' (by simp [hcbs]) hlt' hout'
      constructor
      · cases hout'' : out' with
        | nil => simp [endsWS, hout'', hwsf]
        | cons z zs =>
          rw [hout''] at hres
          have : endsWS (c :: z :: zs) = endsWS (z :: zs) := by simp [endsWS]
          rw [this]
          exact hres.1
      · intro _
        simp

theorem noAdjSp_tail {c : Char} {l : Str} (h : noAdjSp (c :: l) = true) :
    noAdjSp l = true := by
  match l with
  | [] => rfl
  | [b] => rfl
  | b :: d :: r =>
    by_cases hc : c = ' ' ∧ b = ' '
    · simp [noAdjSp, hc] at h
    · simpa [noAdjSp, hc] using h

/-- Canonical shape of the collapsing loop's output on backslash-free
single-byte input: no backslash, every whitespace character is a plain
space, no two adjacent spaces, and (when the loop starts inside a
whitespace run) the output does not begin with whitespace. -/
theorem collapseAux_canonical :
    ∀ (rest : Str) (prev : Option Char) (prevSpace : Bool) (out : Str),
    '\\' ∉ rest → (∀ c ∈ rest, c.toNat < 128) → prev ≠ some '\\' →
    collapseAux prev prevSpace rest = some out →
    ('\\' ∉ out) ∧ (∀ x ∈ out, goIsSpace x = true → x = ' ') ∧ noAdjSp out = true ∧
      (prevSpace = true → ∀ z zs, out = z :: zs → goIsSpace z = false) := by
  intro rest
  induction rest with
  | nil =>
    intro prev prevSpace out _ _ _ h
    simp [collapseAux] at h
    subst h
    refine ⟨by simp, by simp, rfl, ?_⟩
    intro _ z zs hzz
    cases hzz
  | cons c rest' ih =>
    intro prev prevSpace out hbs hascii hprev h
    have hcbs : c ≠ '\\' := by intro hc; exact hbs (by simp [hc])
    have hbs' : '\\' ∉ rest' := fun hm => hbs (List.mem_cons_of_mem _ hm)
    have hascii' : ∀ x ∈ rest', x.toNat < 128 :=
      fun x hx => hascii x (List.mem_cons_of_mem _ hx)
    by_cases hws : goIsSpace c = true
    · cases prevSpace with
      | true =>
        match prev, hprev with
        | none, _ =>
          rw [collapseAux_none_ws_true c rest' hcbs hws] at h
          exact absurd h (by simp)
        | some p, hprev =>
          have hp : p ≠ '\\' := fun hip => hprev (congrArg some hip)
          rw [collapseAux_cons_ws_true p c rest' hcbs hws] at h
          rw [Option.map_eq_some'] at h
          obtain ⟨out', hout', hfo⟩ := h
          rw [if_neg hp] at hfo
          simp only [List.nil_append] at hfo
          subst hfo
          exact ih (some c) true out' hbs' hascii' (by simp [hcbs]) hout'
      | false =>
        rw [collapseAux_cons_ws_false prev c rest' hcbs hws] at h
        rw [Option.map_eq_some'] at h
        obtain ⟨out', hout', hfo⟩ := h
        have hres := ih (some c) true out' hbs' hascii' (by simp [hcbs]) hout'
        by_cases hre : rest'.isEmpty = true
        · have hc128 : c.toNat < 128 := hascii c (by simp)
          rw [if_pos ⟨hre, hc128⟩] at hfo
          have hrnil : rest' = [] := by
            cases rest' with
            | nil => rfl
            | cons d r' => simp at hre
          rw [hrnil] at hout'
          simp [collapseAux] at hout'
          subst hout'
          simp only [List.nil_append] at hfo
          subst hfo
          refine ⟨by simp, by simp, rfl, ?_⟩
          intro hfalse
          cases hfalse
        · rw [if_neg (by simp [hre])] at hfo
          subst hfo
          refine ⟨?_, ?_, ?_, ?_⟩
          · intro hm
            cases List.mem_cons.mp hm with
            | inl hz => cases hz
            | inr hz => exact hres.1 hz
          · intro x hx hxw
            cases List.mem_cons.mp hx with
            | inl hz => exact hz
            | inr hz => exact hres.2.1 x hz hxw
          · cases hout'' : out' with
            | nil => rfl
            | cons z zs =>
              have hzw : goIsSpace z = false := hres.2.2.2 rfl z zs hout''
              have hzsp : ¬ z = ' ' := by
                intro hzz
                rw [hzz] at hzw
                simp [goIsSpace] at hzw
              have hadj2 := hres.2.2.1
              rw [hout''] at hadj2
              simpa [noAdjSp, hzsp] using hadj2
          · intro hfalse
            cases hfalse
    · have hwsf : goIsSpace c = false := by
        cases hxb : goIsSpace c with
        | true => exact absurd hxb hws
        | false => rfl
      rw [collapseAux_cons_default prev prevSpace c rest' hcbs hwsf] at h
      rw [Option.map_eq_some'] at h
      obtain ⟨out', hout', hfo⟩ := h
      subst hfo
      have hres := ih (some c) false out' hbs' hascii' (by simp [hcbs]) hout'
      refine ⟨?_, ?_, ?_, ?_⟩
      · intro hm
        cases List.mem_cons.mp hm with
        | inl hz => exact hcbs hz.symm
        | inr hz => exact hres.1 hz
      · intro x hx hxw
        cases List.mem_cons.mp hx with
        | inl hz => rw [hz] at hxw; rw [hwsf] at hxw; cases hxw
        | inr hz => exact hres.2.1 x hz hxw
      · cases hout'' : out' with
        | nil => rfl
        | cons z zs =>
          have hcs : ¬ (c = ' ' ∧ z = ' ') := by
            intro hzz
            rw [hzz.1] at hwsf
            simp [goIsSpace] at hwsf
          have hadj2 := hres.2.2.1
          rw [hout''] at hadj2
          simpa [noAdjSp, hcs] using hadj2
      · intro _ z zs hzz
        cases hzz
        exact hwsf

/-- The collapsing loop is the identity on canonical strings: no backslash,
only plain spaces as whitespace, no two adjacent spaces, no trailing
whitespace (and, if entered inside a whitespace run, no leading space). -/
theorem collapseAux_canonical_id :
    ∀ (rest : Str) (prev : Option Char) (prevSpace : Bool),
    '\\' ∉ rest → (∀ x ∈ rest, goIsSpace x = true → x = ' ') → noAdjSp rest = true →
    endsWS rest = false →
    (prevSpace = true → ∀ z zs, rest = z :: zs → z ≠ ' ') →
    collapseAux prev prevSpace rest = some rest := by
  intro rest
  induction rest with
  | nil => intro prev prevSpace _ _ _ _ _; simp [collapseAux]
  | cons c rest' ih =>
    intro prev prevSpace hbs honly hadj hend hinv
    have hcbs : c ≠ '\\' := by intro hc; exact hbs (by simp [hc])
    have hbs' : '\\' ∉ rest' := fun hm => hbs (List.mem_cons_of_mem _ hm)
    have honly' : ∀ x ∈ rest', goIsSpace x = true → x = ' ' :=
      fun x hx => honly x (List.mem_cons_of_mem _ hx)
    have hadj' : noAdjSp rest' = true := noAdjSp_tail hadj
    by_cases hws : goIsSpace c = true
    · have hcsp : c = ' ' := honly c (by simp) hws
      cases prevSpace with
      | true => exact absurd hcsp (hinv rfl c rest' rfl)
      | false =>
        have hrne : rest' ≠ [] := by
          intro hrnil
          rw [hrnil] at hend
          simp [endsWS, hws] at hend
        have hremp : rest'.isEmpty = false := by
          cases rest' with
          | nil => exact absurd rfl hrne
          | cons d r' => rfl
        rw [collapseAux_cons_ws_false prev c rest' hcbs hws]
        have hend' : endsWS rest' = false := by
          cases rest' with
          | nil => exact absurd rfl hrne
          | cons d r' => simpa [endsWS] using hend
        have hinv' : ∀ z zs, rest' = z :: zs → z ≠ ' ' := by
          intro z zs hzz hzsp
          rw [hzz, hcsp] at hadj
          rw [hzsp] at hadj
          simp [noAdjSp] at hadj
        rw [ih (some c) true hbs' honly' hadj' hend' (fun _ => hinv')]
        rw [if_neg (by simp [hremp])]
        rw [hcsp]
        rfl
    · have hwsf : goIsSpace c = false := by
        cases hxb : goIsSpace c with
        | true => exact absurd hxb hws
        | false => rfl
      rw [collapseAux_cons_default prev prevSpace c rest' hcbs hwsf]
      have hend' : endsWS rest' = false := by
        cases rest' with
        | nil => rfl
        | cons d r' => simpa [endsWS] using hend
      rw [ih (some c) false hbs' honly' hadj' hend' (fun hq => by cases hq)]
      rfl

/-! ## Facts about the line reader -/

/-- Skipped lines (blank or comment) leave the reader state unchanged
apart from the physical line counter. -/
theorem processLinesWith_skipped (rf : Str → GoResult (Except Str (List Entry))) :
    ∀ (pre rest : List Str) (no i : Nat) (acc : List Entry),
    (∀ p ∈ pre, skipLine p = true) →
    processLinesWith rf (pre ++ rest) no i acc =
      processLinesWith rf rest (no + pre.length) i acc := by
  intro pre
  induction pre with
  | nil => intro rest no i acc _; simp
  | cons p pre' ih =>
    intro rest no i acc hall
    have hp : skipLine p = true := hall p (by simp)
    have hstep : processLinesWith rf (p :: (pre' ++ rest)) no i acc =
        processLinesWith rf (pre' ++ rest) (no + 1) i acc := by
      simp [processLinesWith, hp]
    rw [List.cons_append, hstep,
      ih rest (no + 1) i acc (fun q hq => hall q (List.mem_cons_of_mem _ hq))]
    have harith : no + 1 + pre'.length = no + (p :: pre').length := by
      simp [List.length_cons]
      omega
    rw [harith]

/-- The comment scan never changes the first character of a line whose
first character is neither `#` nor `\`. -/
theorem rcAux_head : ∀ (fuel : Nat) (s : Str) (prevcmt : Nat) (out : Str) (c : Char),
    s.head? = some c → c ≠ '\\' →
    rcAux fuel s prevcmt = .ok out →
    out = [] ∨ out.head? = some c := by
  intro fuel
  induction fuel with
  | zero => intro s prevcmt out c _ _ h; simp [rcAux] at h
  | succ fuel ih =>
    intro s prevcmt out c hhead hcbs h
    match hidx : strIndex '#' (s.drop prevcmt) with
    | none =>
      rw [rcAux] at h
      rw [hidx] at h
      simp at h
      right
      rw [← h]
      exact hhead
    | some k =>
      by_cases hc0 : k + prevcmt = 0
      · rw [rcAux] at h
        rw [hidx] at h
        simp [hc0] at h
      · cases s with
        | nil => simp at hhead
        | cons a s₂ =>
          have hac : a = c := by simpa using hhead
          by_cases hbs : (a :: s₂)[k + prevcmt - 1]? = some '\\'
          · have hkp1 : ¬ (k + prevcmt - 1 = 0) := by
              intro h0
              rw [h0] at hbs
              simp at hbs
              rw [hac] at hbs
              exact hcbs hbs
            obtain ⟨m, hm⟩ : ∃ m, k + prevcmt - 1 = m + 1 := ⟨k + prevcmt - 2, by omega⟩
            have hrec : rcAux fuel ((a :: s₂).take (k + prevcmt - 1) ++
                (a :: s₂).drop (k + prevcmt)) (k + prevcmt) = .ok out := by
              rw [rcAux] at h
              rw [hidx] at h
              simp only [hc0, if_false, hbs, if_true, ite_false, ite_true] at h
              simpa [hc0, hbs] using h
            have hhead' : ((a :: s₂).take (k + prevcmt - 1) ++
                (a :: s₂).drop (k + prevcmt)).head? = some c := by
              rw [hm]
              simp [List.take_cons, hac]
            exact ih _ (k + prevcmt) out c hhead' hcbs hrec
          · rw [rcAux] at h
            rw [hidx] at h
            simp only [hc0, hbs, if_false, ite_false, ite_true] at h
            have hout : out = (a :: s₂).take (k + prevcmt) := by
              simpa [hc0, hbs] using h.symm
            obtain ⟨m, hm⟩ : ∃ m, k + prevcmt = m + 1 := ⟨k + prevcmt - 1, by omega⟩
            right
            rw [hout, hm]
            simp [List.take_cons, hac]

/-- The collapsing loop cannot fault once a previous rune exists. -/
theorem collapseAux_prev_some : ∀ (rest : Str) (p : Char) (ps : Bool),
    ∃ out, collapseAux (some p) ps rest = some out := by
  intro rest
  induction rest with
  | nil => intro p ps; exact ⟨[], rfl⟩
  | cons c rest' ih =>
    intro p ps
    by_cases hc : c = '\\'
    · subst hc
      obtain ⟨out, hout⟩ := ih '\\' ps
      refine ⟨(if p = '\\' then ['\\'] else []) ++ out, ?_⟩
      simp [collapseAux, hout]
    · by_cases hws : goIsSpace c = true
      · cases ps with
        | true =>
          obtain ⟨out, hout⟩ := ih c true
          exact ⟨_, by rw [collapseAux_cons_ws_true p c rest' hc hws, hout]; rfl⟩
        | false =>
          obtain ⟨out, hout⟩ := ih c true
          exact ⟨_, by rw [collapseAux_cons_ws_false (some p) c rest' hc hws, hout]; rfl⟩
      · have hwsf : goIsSpace c = false := by
          cases hxb : goIsSpace c with
          | true => exact absurd hxb hws
          | false => rfl
        obtain ⟨out, hout⟩ := ih c false
        exact ⟨_, by rw [collapseAux_cons_default (some p) ps c rest' hc hwsf, hout]; rfl⟩

/-- Model of `collapseWhitespace` runs without the `line[-1]` fault exactly when the
line does not start with a backslash. -/
theorem collapseWhitespace_some (s : Str) (h : s.head? ≠ some '\\') :
    ∃ out, collapseWhitespace s = some out := by
  cases s with
  | nil => exact ⟨[], rfl⟩
  | cons c s₂ =>
    have hc : c ≠ '\\' := by
      intro hcc
      exact h (by simp [hcc])
    by_cases hws : goIsSpace c = true
    · obtain ⟨out, hout⟩ := collapseAux_prev_some s₂ c true
      exact ⟨_, by rw [collapseWhitespace, collapseAux_cons_ws_false none c s₂ hc hws, hout]; rfl⟩
    · have hwsf : goIsSpace c = false := by
        cases hxb : goIsSpace c with
        | true => exact absurd hxb hws
        | false => rfl
      obtain ⟨out, hout⟩ := collapseAux_prev_some s₂ c false
      exact ⟨_, by rw [collapseWhitespace, collapseAux_cons_default none false c s₂ hc hwsf, hout]; rfl⟩

/-! ## Claim theorems -/

/-- Claim C7: the input line `key a \# b` parses to exactly the token list
`["key","a","#","b"]`: the escaped `#` becomes a literal `#`, the escaping
backslash is consumed, and the rest of the line is not truncated as a
comment. -/
theorem c7_escaped_hash_tokens :
    (processContent (("key a \\# b").toList)).map splitSp =
      some [("key").toList, ("a").toList, ("#").toList, ("b").toList] := by
  rfl

/-- Claim C10: `FindConfig` ignores leading slashes in its file-name
argument: prepending `/` to the file name changes nothing, for every
environment, `stat` behaviour and `filepath.Join` implementation, so an
absolute-looking argument is still searched relative to the conventional
locations. -/
theorem c10_findconfig_ignores_leading_slash
    (join : List Str → Str) (getenv : Str → Str) (stat : Str → Bool) (f : Str) :
    FindConfig join getenv stat ('/' :: f) = FindConfig join getenv stat f := by
  rfl

/-- Claim C2 (failing run): with `main.conf` containing `key1 v`, a
`source other.conf` directive (where `other.conf` holds the two entries
`a 1` and `b 2`) and then the indented line `  cont`, the continuation is
appended to the *first* spliced entry `a 1` — not to the immediately
preceding emitted entry `b 2` as the claim requires — because `readFile`
tracks `i`, which counts loop iterations of the including file, instead of
the number of emitted entries. -/
theorem c2_continuation_after_source :
    readFileGo 2 fsC2 (("main.conf").toList) =
      .ok (.ok [(1, ("key1 v").toList), (1, ("a 1 cont").toList), (2, ("b 2").toList)]) := by
  rfl

/-- Claim C1 (counterexample): with the two handlers `c1h1` (constantly the
string `X`) and `c1h2` (echo of the first token) registered for type
`string`, the code assigns `a` on input token `a` — the *original* token
list is fed to every handler and the last output wins — whereas the spec's
chain (feed each output to the next handler, `chainSpecFeed`) would produce
`X`. -/
theorem c1_counterexample :
    setFromTypeHandler c1reg (.str []) [("a").toList] =
        .ok (true, .ok (.str (("a").toList))) ∧
    chainSpecFeed [c1h1, c1h2] [("a").toList] = .ok (.ok (some (.str (("X").toList)))) ∧
    (("a").toList : Str) ≠ ("X").toList := by
  exact ⟨rfl, rfl, by decide⟩

/-- Claim C3 (counterexample): with the safe-mode flag at its default
(`DontPanic = true`), a field handler that panics with a *non-error* value
(`panic` of the plain string `boom`) is re-raised by Parse's recover, not
converted into a normal error return: the recover only converts panicked
values implementing `error`. -/
theorem c3_counterexample :
    Parse DontPanic [] 2 fsC3 cfgC3 (("conf").toList) handlersC3 =
      .panicked (.nonError (("boom").toList)) := by
  rfl

/-- Claim C5 (counterexample): the line `a  #c` — two spaces before the
trailing comment — is processed to `a` followed by one space: comment
removal leaves two trailing spaces, the collapsing step emits a single
space for the run (its first space is not the final character), so the
processed content ends in whitespace. -/
theorem c5_counterexample :
    processContent (("a  #c").toList) = some (("a ").toList) ∧
    endsWS (("a ").toList) = true := by
  exact ⟨rfl, rfl⟩

/-- Claim C5 (amended): a line's processed content never ends in whitespace
provided the comment-stripped line contains no backslash, consists of
single-byte characters, and does not end in two whitespace characters — in
particular, a *single* trailing space left behind by the removal of a
trailing comment is always dropped. (A trailing whitespace run of length
two or more, or a backslash-escaped trailing space, can survive as one
trailing space: see the counterexample.) -/
theorem c5_amended (raw rc out : Str)
    (h1 : removeComments (trimSpace raw) = .ok rc)
    (h2 : '\\' ∉ rc) (h3 : ∀ c ∈ rc, c.toNat < 128)
    (h4 : lastTwoWS rc = false)
    (h5 : collapseWhitespace rc = some out) :
    processContent raw = some out ∧ endsWS out = false := by
  constructor
  · simp [processContent, h1, h5]
  · exact (collapseAux_not_endsWS rc none false out h2 h3 (by simp) h4 h5).1

/-- Witness for C5 at the line `key value # c`, whose comment removal
leaves one trailing space. -/
theorem c5_witness :
    processContent (("key value # c").toList) = some (("key value").toList) ∧
    endsWS (("key value").toList) = false :=
  c5_amended (("key value # c").toList) (("key value ").toList) (("key value").toList)
    rfl (by decide) (by decide) (by decide) rfl

theorem endsWS_allWS : ∀ (l : Str), l ≠ [] → (∀ x ∈ l, goIsSpace x = true) →
    endsWS l = true := by
  intro l
  induction l with
  | nil => intro h _; exact absurd rfl h
  | cons c l' ih =>
    intro _ hall
    cases l' with
    | nil => simpa [endsWS] using hall c (by simp)
    | cons d r =>
      have hrec := ih (by simp) (fun x hx => hall x (List.mem_cons_of_mem _ hx))
      simpa [endsWS] using hrec

/-- Canonical shape of the collapsing loop's output on backslash-free input
with no trailing whitespace, with no single-byte restriction (the byte-width
test in the emission condition only matters for a final whitespace rune,
which the no-trailing-whitespace hypothesis rules out): no backslash, only
plain spaces as whitespace, no two adjacent spaces, no trailing whitespace;
the output is nonempty when some input character is not whitespace, and
does not begin with whitespace when the loop starts inside a whitespace
run. -/
theorem collapseAux_canonical_noWS :
    ∀ (rest : Str) (prev : Option Char) (prevSpace : Bool) (out : Str),
    '\\' ∉ rest → endsWS rest = false → prev ≠ some '\\' →
    collapseAux prev prevSpace rest = some out →
    ('\\' ∉ out) ∧ (∀ x ∈ out, goIsSpace x = true → x = ' ') ∧ noAdjSp out = true ∧
      endsWS out = false ∧ (hasNonWS rest = true → out ≠ []) ∧
      (prevSpace = true → ∀ z zs, out = z :: zs → goIsSpace z = false) := by
  intro rest
  induction rest with
  | nil =>
    intro prev prevSpace out _ _ _ h
    simp [collapseAux] at h
    subst h
    refine ⟨by simp, by simp, rfl, rfl, ?_, ?_⟩
    · intro hn; simp [hasNonWS] at hn
    · intro _ z zs hzz; cases hzz
  | cons c rest' ih =>
    intro prev prevSpace out hbs hend hprev h
    have hcbs : c ≠ '\\' := by intro hc; exact hbs (by simp [hc])
    have hbs' : '\\' ∉ rest' := fun hm => hbs (List.mem_cons_of_mem _ hm)
    have hend' : endsWS rest' = false := by
      cases rest' with
      | nil => rfl
      | cons d r => simpa [endsWS] using hend
    by_cases hws : goIsSpace c = true
    · have hrne : rest' ≠ [] := by
        intro hrnil
        rw [hrnil] at hend
        simp [endsWS, hws] at hend
      have hnws' : hasNonWS rest' = true := by
        by_contra hnn
        have hallws : ∀ x ∈ rest', goIsSpace x = true := by
          intro x hx
          by_contra hxw
          refine hnn (hasNonWS_iff.mpr ⟨x, hx, ?_⟩)
          cases hxb : goIsSpace x with
          | true => exact absurd hxb hxw
          | false => rfl
        rw [endsWS_allWS rest' hrne hallws] at hend'
        cases hend'
      cases prevSpace with
      | true =>
        match prev, hprev with
        | none, _ =>
          rw [collapseAux_none_ws_true c rest' hcbs hws] at h
          exact absurd h (by simp)
        | some p, hprev =>
          have hp : p ≠ '\\' := fun hip => hprev (congrArg some hip)
          rw [collapseAux_cons_ws_true p c rest' hcbs hws] at h
          rw [Option.map_eq_some'] at h
          obtain ⟨out', hout', hfo⟩ := h
          rw [if_neg hp] at hfo
          simp only [List.nil_append] at hfo
          subst hfo
          have hres := ih (some c) true out' hbs' hend' (by simp [hcbs]) hout'
          refine ⟨hres.1, hres.2.1, hres.2.2.1, hres.2.2.2.1, ?_, hres.2.2.2.2.2⟩
          intro _
          exact hres.2.2.2.2.1 hnws'
      | false =>
        rw [collapseAux_cons_ws_false prev c rest' hcbs hws] at h
        rw [Option.map_eq_some'] at h
        obtain ⟨out', hout', hfo⟩ := h
        have hremp : rest'.isEmpty = false := by
          cases rest' with
          | nil => exact absurd rfl hrne
          | cons d r' => rfl
        rw [if_neg (by simp [hremp])] at hfo
        subst hfo
        have hres := ih (some c) true out' hbs' hend' (by simp [hcbs]) hout'
        have hne : out' ≠ [] := hres.2.2.2.2.1 hnws'
        refine ⟨?_, ?_, ?_, ?_, ?_, ?_⟩
        · intro hm
          cases List.mem_cons.mp hm with
          | inl hz => cases hz
          | inr hz => exact hres.1 hz
        · intro x hx hxw
          cases List.mem_cons.mp hx with
          | inl hz => exact hz
          | inr hz => exact hres.2.1 x hz hxw
        · cases hout'' : out' with
          | nil => exact absurd hout'' hne
          | cons z zs =>
            have hzw : goIsSpace z = false := hres.2.2.2.2.2 rfl z zs hout''
            have hzsp : ¬ z = ' ' := by
              intro hzz
              rw [hzz] at hzw
              simp [goIsSpace] at hzw
            have hadj2 := hres.2.2.1
            rw [hout''] at hadj2
            simpa [noAdjSp, hzsp] using hadj2
        · cases hout'' : out' with
          | nil => exact absurd hout'' hne
          | cons z zs =>
            have hre2 := hres.2.2.2.1
            rw [hout''] at hre2
            simpa [endsWS] using hre2
        · intro _
          simp
        · intro hfalse
          cases hfalse
    · have hwsf : goIsSpace c = false := by
        cases hxb : goIsSpace c with
        | true => exact absurd hxb hws
        | false => rfl
      rw [collapseAux_cons_default prev prevSpace c rest' hcbs hwsf] at h
      rw [Option.map_eq_some'] at h
      obtain ⟨out', hout', hfo⟩ := h
      subst hfo
      have hres := ih (some c) false out' hbs' hend' (by simp [hcbs]) hout'
      refine ⟨?_, ?_, ?_, ?_, ?_, ?_⟩
      · intro hm
        cases List.mem_cons.mp hm with
        | inl hz => exact hcbs hz.symm
        | inr hz => exact hres.1 hz
      · intro x hx hxw
        cases List.mem_cons.mp hx with
        | inl hz => rw [hz] at hxw; rw [hwsf] at hxw; cases hxw
        | inr hz => exact hres.2.1 x hz hxw
      · cases hout'' : out' with
        | nil => rfl
        | cons z zs =>
          have hcs : ¬ (c = ' ' ∧ z = ' ') := by
            intro hzz
            rw [hzz.1] at hwsf
            simp [goIsSpace] at hwsf
          have hadj2 := hres.2.2.1
          rw [hout''] at hadj2
          simpa [noAdjSp, hcs] using hadj2
      · cases hout'' : out' with
        | nil => simp [endsWS, hout'', hwsf]
        | cons z zs =>
          have hre2 := hres.2.2.2.1
          rw [hout''] at hre2
          simpa [endsWS] using hre2
      · intro _
        simp
      · intro _ z zs hzz
        cases hzz
        exact hwsf

/-- Claim C6 (amended): whitespace collapsing is idempotent on every line
that contains no backslash and does not end in whitespace (in the Line
Reader, every line without `#` and `\` reaches the collapsing step in this
trimmed form); lines with backslash escapes are excluded — see the
counterexample. -/
theorem c6_amended (s t : Str) (h1 : '\\' ∉ s)
    (h3 : endsWS s = false) (h4 : collapseWhitespace s = some t) :
    collapseWhitespace t = some t := by
  have hcan := collapseAux_canonical_noWS s none false t h1 h3 (by simp) h4
  exact collapseAux_canonical_id t none false hcan.1 hcan.2.1 hcan.2.2.1
    hcan.2.2.2.1 (fun hq => by cases hq)

/-- Witness for C6 at the line `key  value`: collapsing once gives
`key value`, and collapsing that output again leaves it unchanged. -/
theorem c6_witness :
    collapseWhitespace (("key value").toList) = some (("key value").toList) :=
  c6_amended (("key  value").toList) (("key value").toList) (by decide) (by decide) rfl

/-- Claim C6 (counterexample): on the well-formed `#`-free line `a\\b`
(the documented escape for a literal backslash), collapsing once yields
`a\b` but collapsing that output again yields `ab`: the normalization is
not idempotent on lines containing backslash escapes. -/
theorem c6_counterexample :
    collapseWhitespace (("a\\\\b").toList) = some (("a\\b").toList) ∧
    collapseWhitespace (("a\\b").toList) = some (("ab").toList) ∧
    (("a\\b").toList : Str) ≠ ("ab").toList := by
  exact ⟨rfl, rfl, by decide⟩

/-- Claim C8 (counterexample): a file whose first (and only) line is
indented but whose trimmed content begins with a backslash makes the line
reader panic with an index-out-of-range runtime error (from
`collapseWhitespace` reading `line[-1]`), which is *not* the structural
"first line can't be indented" error the claim promises. -/
theorem c8_counterexample :
    readFileGo 1 fsC8x (("f").toList) =
        .panicked (.errVal (("runtime error: index out of range").toList)) ∧
    readFileGo 1 fsC8x (("f").toList) ≠
        .ok (.error (("first line can't be indented").toList)) := by
  exact ⟨rfl, by decide⟩

/-- Claim C8 (amended): for every input file whose first physical
non-blank, non-comment line is indented, provided that line's trimmed
content does not begin with a backslash, the Line Reader fails with the
structural error "first line can't be indented" and parsing is aborted; the
indented first line is never silently accepted or skipped. (If the trimmed
content begins with `\`, the reader fails too, but with an
index-out-of-range panic instead of the structural error — see the
counterexample.) -/
theorem c8_first_line_indented (fuel : Nat) (fs : Str → Option (List Str)) (file : Str)
    (pre post : List Str) (l : Str)
    (hfs : fs file = some (pre ++ l :: post))
    (hpre : ∀ p ∈ pre, skipLine p = true)
    (hskip : skipLine l = false)
    (hind : isIndentedLine l = true)
    (hbsl : (trimSpace l).head? ≠ some '\\') :
    readFileGo (fuel + 1) fs file =
      .ok (.error ("first line can't be indented").toList) := by
  have hns : ¬ trimSpace l = [] ∧ ¬ (trimSpace l).head? = some '#' := by
    simpa [skipLine] using hskip
  obtain ⟨rc, hrc⟩ :=
    rcAux_ok ((trimSpace l).length + 1) (trimSpace l) 0 (by omega) (.inr hns.2)
  have hrch : rc = [] ∨ rc.head? = (trimSpace l).head? := by
    cases htl : trimSpace l with
    | nil => exact absurd htl hns.1
    | cons c₀ s₀ =>
      rw [htl] at hrc
      have hc₀ : c₀ ≠ '\\' := by
        intro hcc
        rw [htl, hcc] at hbsl
        exact hbsl (by simp)
      cases rcAux_head _ _ _ _ c₀ (by simp) hc₀ hrc with
      | inl hnil => exact .inl hnil
      | inr hh => exact .inr (by rw [hh]; simp)
  have hrcbs : rc.head? ≠ some '\\' := by
    cases hrch with
    | inl hnil => rw [hnil]; simp
    | inr hh => rw [hh]; exact hbsl
  obtain ⟨out, hout⟩ := collapseWhitespace_some rc hrcbs
  have hpc : processContent l = some out := by
    simp [processContent, removeComments, hrc, hout]
  simp only [readFileGo, hfs]
  rw [processLinesWith_skipped (readFileGo fuel fs) pre (l :: post) 0 0 [] hpre]
  simp [processLinesWith, hskip, hpc, hind]

/-- Witness for C8: the one-line file `  key value` (the spec's own
example) aborts with the structural error. -/
theorem c8_witness :
    readFileGo 1 fsC8w (("f").toList) =
      .ok (.error ("first line can't be indented").toList) :=
  c8_first_line_indented 0 fsC8w (("f").toList) [] [] (("  key value").toList) rfl
    (by intro p hp; cases hp) (by decide) (by decide) (by decide)

/-- A prefix of handlers that all succeed advances the chain state without
affecting what the remaining handlers compute (each handler is applied to
the original `value`). -/
theorem runChain_append : ∀ (hs tail : List TypeHandler) (value : List Str) (v₀ : Option Val),
    (∀ g ∈ hs, ∃ w, g value = .ok (.ok w)) →
    ∃ v₁, runChain (hs ++ tail) value v₀ = runChain tail value v₁ := by
  intro hs
  induction hs with
  | nil => intro tail value v₀ _; exact ⟨v₀, rfl⟩
  | cons g gs ih =>
    intro tail value v₀ hall
    obtain ⟨w, hw⟩ := hall g (by simp)
    obtain ⟨v₁, hv₁⟩ := ih tail value w (fun q hq => hall q (List.mem_cons_of_mem _ hq))
    refine ⟨v₁, ?_⟩
    rw [List.cons_append]
    have hstep : runChain (g :: (gs ++ tail)) value v₀ = runChain (gs ++ tail) value w := by
      simp [runChain, hw]
    rw [hstep]
    exact hv₁

/-- Claim C1 (amended): when a field's type has several registered Type
Handlers they are invoked in registration order, but each receives the
*original* token list (not the previous handler's output); when all
succeed, the *last* handler's output is what gets converted to the field's
type and assigned, and the chain stops at the first handler that returns an
error, which aborts the binding. -/
theorem c1_chain_amended (hs : List TypeHandler) (h : TypeHandler) (value : List Str) :
    ((∀ g ∈ hs, ∃ w, g value = .ok (.ok w)) →
      ∀ w v₀, h value = .ok (.ok w) → runChain (hs ++ [h]) value v₀ = .ok (.ok w)) ∧
    ((∀ g ∈ hs, ∃ w, g value = .ok (.ok w)) →
      ∀ e hs2 v₀, h value = .ok (.error e) →
        runChain (hs ++ h :: hs2) value v₀ = .ok (.error e)) ∧
    (∀ reg field w f',
      lookupTH reg field.typeStr = some (hs ++ [h]) →
      (∀ g ∈ hs, ∃ u, g value = .ok (.ok u)) →
      h value = .ok (.ok w) → fieldSet field w = .ok f' →
      setFromTypeHandler reg field value = .ok (true, .ok f')) := by
  refine ⟨?_, ?_, ?_⟩
  · intro hall w v₀ hw
    obtain ⟨v₁, hv₁⟩ := runChain_append hs [h] value v₀ hall
    rw [hv₁]
    simp [runChain, hw]
  · intro hall e hs2 v₀ hw
    obtain ⟨v₁, hv₁⟩ := runChain_append hs (h :: hs2) value v₀ hall
    rw [hv₁]
    simp [runChain, hw]
  · intro reg field w f' hreg hall hw hset
    have hchain : runChain (hs ++ [h]) value none = .ok (.ok w) := by
      obtain ⟨v₁, hv₁⟩ := runChain_append hs [h] value none hall
      rw [hv₁]
      simp [runChain, hw]
    simp [setFromTypeHandler, hreg, hchain, hset]

/-- Witness for C1 applying the amended theorem to the two-handler registry
of the counterexample: the chain result on token `a` is the echo handler's
output on the original tokens. -/
theorem c1_witness :
    runChain [c1h1, c1h2] [("a").toList] none = .ok (.ok (some (.str (("a").toList)))) :=
  (c1_chain_amended [c1h1] c1h2 [("a").toList]).1
    (by
      intro g hg
      simp at hg
      subst hg
      exact ⟨some (.str (("X").toList)), rfl⟩)
    (some (.str (("a").toList))) none rfl

/-- Claim C4: for every sequence-typed (`[]string`) field set through the
Type-Handler chain, each occurrence of the key APPENDS the chain's
resulting value to the field's existing sequence instead of replacing it:
two successive bindings producing `l1` then `l2` turn contents `old` into
`old ++ l1` and then `old ++ l1 ++ l2` (so `tag a` then `tag b` yields
`["a","b"]`, as the witness instantiates). -/
theorem c4_sequence_appends (reg : TypeHandlers) (hs : List TypeHandler)
    (old v1 v2 l1 l2 : List Str)
    (hreg : lookupTH reg (("[]string").toList) = some hs)
    (h1 : runChain hs v1 none = .ok (.ok (some (.strs l1))))
    (h2 : runChain hs v2 none = .ok (.ok (some (.strs l2)))) :
    setFromTypeHandler reg (.strs old) v1 = .ok (true, .ok (.strs (old ++ l1))) ∧
    setFromTypeHandler reg (.strs (old ++ l1)) v2 =
      .ok (true, .ok (.strs (old ++ l1 ++ l2))) := by
  constructor
  · simp only [setFromTypeHandler, Field.typeStr, hreg, h1, fieldSet]
  · simp only [setFromTypeHandler, Field.typeStr, hreg, h2, fieldSet]

/-- Witness for C4: parsing `tag a` then `tag b` through the echo handler
on an initially empty `[]string` field accumulates `["a","b"]`. -/
theorem c4_witness :
    setFromTypeHandler regC4 (.strs []) [("a").toList] =
      .ok (true, .ok (.strs [("a").toList])) ∧
    setFromTypeHandler regC4 (.strs [("a").toList]) [("b").toList] =
      .ok (true, .ok (.strs [("a").toList, ("b").toList])) :=
  c4_sequence_appends regC4 [hEcho] [] [("a").toList] [("b").toList]
    [("a").toList] [("b").toList] rfl rfl rfl

/-- Claim C3 (amended): with safe mode enabled (the default), a panic whose
value implements `error` is caught by Parse's deferred recover and becomes
a normal error return; a panic carrying any *other* value is re-raised even
in safe mode; with safe mode disabled, every outcome of the body propagates
unchanged. -/
theorem c3_recover_amended (reg : TypeHandlers) (fuel : Nat)
    (fs : Str → Option (List Str)) (cfg : Config) (file : Str)
    (handlers : List (Str × Handler)) :
    ((∀ m, ParseBody reg fuel fs cfg file handlers = .panicked (.errVal m) →
        Parse true reg fuel fs cfg file handlers = .ok (.error m)) ∧
     (∀ m, ParseBody reg fuel fs cfg file handlers = .panicked (.nonError m) →
        Parse true reg fuel fs cfg file handlers = .panicked (.nonError m)) ∧
     Parse false reg fuel fs cfg file handlers = ParseBody reg fuel fs cfg file handlers) := by
  refine ⟨?_, ?_, ?_⟩
  · intro m hm
    simp [Parse, recoverWrap, hm]
  · intro m hm
    simp [Parse, recoverWrap, hm]
  · cases hb : ParseBody reg fuel fs cfg file handlers with
    | ok x => simp [Parse, recoverWrap, hb]
    | panicked p => cases p <;> simp [Parse, recoverWrap, hb]
    | diverge => simp [Parse, recoverWrap, hb]

/-- Witness for C3: a field handler panicking with an `error` value is
converted by the default-mode Parse into an ordinary error return. -/
theorem c3_witness :
    Parse true [] 2 fsC3 cfgC3 (("conf").toList) handlersC3err =
      .ok (.error (("kaboom").toList)) :=
  (c3_recover_amended [] 2 fsC3 cfgC3 (("conf").toList) handlersC3err).1
    (("kaboom").toList) rfl

end Sconfig
